import Mathlib

/-!
Verification of the jscategory runtime-contract engine.

The JavaScript source (`jscategory.js` and its ES6 revisions) is shallowly
embedded here: JavaScript values become the inductive type `JSVal`,
a contract (a unary validating function that either returns a value or
throws a `TypeError`) becomes `Contract := JSVal → Except JSError JSVal`,
and a callable invoked with a receiver and an argument list becomes
`Callable := JSVal → List JSVal → Except JSError JSVal`.
Thrown exceptions are modelled by the error channel of `Except`; the
error payload is the `TypeError` message string from the source.
Numbers are modelled as integers (`Int`): every value the contracts in
the claims inspect is integral and far below 2^53, where JavaScript
number arithmetic is exact.
-/

/-- A JavaScript value.  Objects carry their own enumerable properties in
insertion order together with their prototype (`JSVal.null` for none);
arrays carry their element list. -/
inductive JSVal where
  | undef
  | null
  | bool (b : Bool)
  | num (n : Int)
  | str (s : String)
  | arr (elems : List JSVal)
  | obj (fields : List (String × JSVal)) (proto : JSVal)
deriving Repr

/-- Structural equality of JSVal values.  On primitives this coincides with
JavaScript strict equality `===`.  (On arrays and objects `===` is reference
identity, which a pure value model cannot express; theorems that depend on
`===` therefore restrict themselves to primitive values.) -/
def jsEq : JSVal → JSVal → Bool
  | .undef, .undef => true
  | .null, .null => true
  | .bool a, .bool b => a == b
  | .num a, .num b => a == b
  | .str a, .str b => a == b
  | .arr [], .arr [] => true
  | .arr (x :: xs), .arr (y :: ys) => jsEq x y && jsEq (.arr xs) (.arr ys)
  | .obj [] p, .obj [] q => jsEq p q
  | .obj ((k, v) :: fs) p, .obj ((l, w) :: gs) q =>
      k == l && jsEq v w && jsEq (.obj fs p) (.obj gs q)
  | _, _ => false

/-- `true` exactly on the values that are not arrays or objects; on these,
`jsEq` agrees with JavaScript `===`. -/
def isPrim : JSVal → Bool
  | .arr _ => false
  | .obj _ _ => false
  | _ => true

/-- A thrown `TypeError`, identified by its message. -/
abbrev JSError := String

/-- A contract: validates a value or throws. -/
abbrev Contract := JSVal → Except JSError JSVal

/-- A callable, invoked with a receiver (`this`) and an argument list. -/
abbrev Callable := JSVal → List JSVal → Except JSError JSVal

/-- The class label reported by `Object.prototype.toString`
(`"[object X]"` with the `"[object "`/`"]"` wrapper stripped). -/
def className : JSVal → String
  | .undef => "Undefined"
  | .null => "Null"
  | .bool _ => "Boolean"
  | .num _ => "Number"
  | .str _ => "String"
  | .arr _ => "Array"
  | .obj _ _ => "Object"

/-- `classOf(s)` from the source: tests the `[[Class]]` internal property. -/
def classOf (s : String) : Contract := fun v =>
  if className v = s then .ok v else .error ("Expected " ++ s)

/-- `array = classOf("Array")`. -/
def arrayC : Contract := classOf "Array"

/-- `object = classOf("Object")`. -/
def objectC : Contract := classOf "Object"

/-- The result of the `typeof` operator on a value. -/
def typeofStr : JSVal → String
  | .undef => "undefined"
  | .null => "object"
  | .bool _ => "boolean"
  | .num _ => "number"
  | .str _ => "string"
  | .arr _ => "object"
  | .obj _ _ => "object"

/-- `typeOf(s)` from the source (the message reproduces the source's
concatenation, including its missing space). -/
def typeOfC (s : String) : Contract := fun v =>
  if typeofStr v = s then .ok v
  else .error ("Expected a" ++ (if s = "object" then "n" else "") ++ s ++ ".")

/-- `string = typeOf("string")`.  The engine's `memo` and `coprods` refer to
a contract named `str`; the ES6 revision spells it `string`, which is what
is meant. -/
def strC : Contract := typeOfC "string"

/-- `any`: the contract that allows anything. -/
def anyC : Contract := fun x => .ok x

/-- `int32`: asserts `(n | 0) === n`, i.e. the value is a number whose
`ToInt32` image is itself — an integer in `[-2^31, 2^31)`. -/
def int32 : Contract := fun v =>
  match v with
  | .num n => if -(2 ^ 31) ≤ n ∧ n < 2 ^ 31 then .ok v
              else .error "Expected a 32-bit integer."
  | _ => .error "Expected a 32-bit integer."

/-- `nat32`: `int32` and nonnegative. -/
def nat32 : Contract := fun v =>
  match v with
  | .num n => if 0 ≤ n ∧ n < 2 ^ 31 then .ok v
              else .error "Expected a 32-bit natural."
  | _ => .error "Expected a 32-bit natural."

/-- The element-wise loop body shared by `prodn` and `pbn`: apply each
contract to the corresponding element, left to right, stopping at the
first failure. -/
def prodnApply : List Contract → List JSVal → Except JSError (List JSVal)
  | [], _ => .ok []
  | _, [] => .ok []
  | c :: cs, x :: xs => do
      let v ← c x
      let vs ← prodnApply cs xs
      pure (v :: vs)

/-- `prodn(cs)`: the positional product.  Checks the input is an array of
the right length, then applies `cs[i]` to element `i`, collecting the
validated elements into a fresh array. -/
def prodn (cs : List Contract) : Contract := fun args =>
  match args with
  | .arr xs =>
      if xs.length = cs.length then (prodnApply cs xs).map .arr
      else .error ("Expected " ++ toString cs.length ++ " arguments")
  | _ => .error "Expected Array"

/-- The guarded callable produced by `hom(input1, …, inputn, output)`
applied to `middle`: on every call, `precond(slice(arguments))` validates
the argument list (a `prodn` over the input contracts), then
`middle.apply(this, validatedArgs)` runs on the original receiver, then
`postcond` validates the result. -/
def homGuard (inputs : List Contract) (post : Contract) (middle : Callable) :
    Callable := fun this args =>
  if args.length = inputs.length then do
    let vs ← prodnApply inputs args
    let r ← middle this vs
    post r
  else .error ("Expected " ++ toString inputs.length ++ " arguments")

/-- The raw addition callable `function (n1, n2) { return n1 + n2; }`,
on the numeric arguments the surrounding `hom(int32, int32, int32)` guard
lets through. -/
def rawAdd : Callable := fun _this args =>
  match args with
  | .num a :: .num b :: _ => .ok (.num (a + b))
  | _ => .ok (JSVal.undef)

/-- `int32Add = hom(int32, int32, int32)(function (n1, n2) { return n1 + n2; })`. -/
def int32Add : Callable := homGuard [int32, int32] int32 rawAdd

/-- If the positional product rejects an argument array, it reports the
member contract's error. -/
lemma prodn_error_iff (cs : List Contract) (xs : List JSVal) (e : JSError) :
    prodn cs (.arr xs) = .error e ↔
      ((xs.length = cs.length ∧ prodnApply cs xs = .error e) ∨
       (xs.length ≠ cs.length ∧ e = "Expected " ++ toString cs.length ++ " arguments")) := by
  unfold prodn
  by_cases hl : xs.length = cs.length
  · simp [hl]
    cases h : prodnApply cs xs <;> simp [Except.map]
  · simp [hl, eq_comm]

/-- If the positional product accepts an argument array, the result is the
array of element-wise validated values. -/
lemma prodn_ok_iff (cs : List Contract) (xs : List JSVal) (v : JSVal) :
    prodn cs (.arr xs) = .ok v ↔
      (xs.length = cs.length ∧ ∃ vs, prodnApply cs xs = .ok vs ∧ v = .arr vs) := by
  unfold prodn
  by_cases hl : xs.length = cs.length
  · simp [hl]
    cases h : prodnApply cs xs <;> simp [Except.map, eq_comm]
  · simp [hl]

/-- C1: A guarded callable produced by a function contract first validates
the argument list against the precondition (the positional product of the
parameter contracts); if that fails, the failure is raised and the wrapped
callable never runs (the outcome is independent of it).  If it succeeds,
the original callable runs with the validated argument list and the
original receiver, and the result is validated by the postcondition.
In particular `hom(int32, int32, int32)` guarding addition returns `7` on
`(3, 4)` and raises the int32 `TypeError` on `(3, "4")` for any wrapped
callable, i.e. before the underlying addition executes. -/
theorem C1_hom_guard :
    (∀ (inputs : List Contract) (post : Contract) (middle : Callable)
        (this : JSVal) (args : List JSVal) (e : JSError),
        prodn inputs (.arr args) = .error e →
        homGuard inputs post middle this args = .error e)
    ∧ (∀ (inputs : List Contract) (post : Contract) (middle : Callable)
        (this : JSVal) (args vs : List JSVal),
        prodn inputs (.arr args) = .ok (.arr vs) →
        homGuard inputs post middle this args = (middle this vs).bind post)
    ∧ int32Add .undef [.num 3, .num 4] = .ok (.num 7)
    ∧ (∀ middle : Callable,
        homGuard [int32, int32] int32 middle .undef [.num 3, .str "4"]
          = .error "Expected a 32-bit integer.") := by
  refine ⟨?_, ?_, ?_, ?_⟩
  · intro inputs post middle this args e h
    rw [prodn_error_iff] at h
    unfold homGuard
    rcases h with ⟨hl, ha⟩ | ⟨hl, he⟩
    · simp only [hl, ha, if_pos]
      rfl
    · simp [hl, he]
  · intro inputs post middle this args vs h
    rw [prodn_ok_iff] at h
    obtain ⟨hl, ws, hw, hv⟩ := h
    injection hv with hv
    subst hv
    unfold homGuard
    simp only [hl, hw, if_pos]
    rfl
  · rfl
  · intro middle
    rfl

/-- Witness for C1: the precondition-failure clause applied at the concrete
input `(3, "4")` with the raw addition as the wrapped callable. -/
theorem C1_hom_guard_witness :
    homGuard [int32, int32] int32 rawAdd .undef [.num 3, .str "4"]
      = .error "Expected a 32-bit integer." :=
  C1_hom_guard.1 [int32, int32] int32 rawAdd .undef [.num 3, .str "4"]
    "Expected a 32-bit integer." (by rfl)

/-- `union(cs)`: tries each contract in order against the original input
`x`, returning the first result that does not throw; the `catch (e) {}` in
the source swallows every exception a member contract throws.  When the
loop exhausts the list it throws its own "No match" error. -/
def unionC : List Contract → Contract
  | [], _ => .error "No match among unioned types."
  | c :: cs, x =>
      match c x with
      | .ok v => .ok v
      | .error _ => unionC cs x

/-- C5: `union(cs)` tries each contract in order against the original input
and returns the result of the first contract that succeeds; it raises the
no-match failure exactly when every contract fails (the third conjunct is
the converse: an error outcome means every member failed); in particular
`union([always-fail, always-succeed-with(x)])(v)` returns `x` for every
`v`, never raising. -/
theorem C5_union_first_success :
    (∀ (pre post : List Contract) (c : Contract) (x v : JSVal),
        (∀ c' ∈ pre, ∃ e, c' x = .error e) → c x = .ok v →
        unionC (pre ++ c :: post) x = .ok v)
    ∧ (∀ (cs : List Contract) (x : JSVal),
        (∀ c ∈ cs, ∃ e, c x = .error e) →
        unionC cs x = .error "No match among unioned types.")
    ∧ (∀ (cs : List Contract) (x : JSVal) (e : JSError),
        unionC cs x = .error e → ∀ c ∈ cs, ∃ e', c x = .error e')
    ∧ (∀ (e : JSError) (x v : JSVal),
        unionC [fun _ => .error e, fun _ => .ok x] v = .ok x) := by
  refine ⟨?_, ?_, ?_, ?_⟩
  · intro pre post c x v hpre hc
    induction pre with
    | nil => simp [unionC, hc]
    | cons c' pre ih =>
        obtain ⟨e, he⟩ := hpre c' (List.mem_cons_self c' pre)
        simp only [List.cons_append, unionC, he]
        exact ih (fun d hd => hpre d (List.mem_cons_of_mem c' hd))
  · intro cs x hcs
    induction cs with
    | nil => rfl
    | cons c cs ih =>
        obtain ⟨e, he⟩ := hcs c (List.mem_cons_self c cs)
        simp only [unionC, he]
        exact ih (fun d hd => hcs d (List.mem_cons_of_mem c hd))
  · intro cs x e
    induction cs with
    | nil => intro _ c hc; cases hc
    | cons c cs ih =>
        intro h d hd
        simp only [unionC] at h
        cases hc : c x with
        | ok v => rw [hc] at h; cases h
        | error e' =>
            rcases List.mem_cons.mp hd with hdc | hdm
            · subst hdc; exact ⟨e', hc⟩
            · rw [hc] at h; exact ih h d hdm
  · intro e x v
    rfl

/-- Witness for C5: in `union([int32, any])` applied to a string, the first
member fails and the second succeeds with the original value. -/
theorem C5_union_first_success_witness :
    unionC [int32, anyC] (.str "q") = .ok (.str "q") :=
  C5_union_first_success.1 [int32] [] anyC (.str "q") (.str "q")
    (by
      intro c' hc'
      rw [List.mem_singleton] at hc'
      subst hc'
      exact ⟨"Expected a 32-bit integer.", rfl⟩)
    rfl

/-- C10: an exception raised inside a member contract of a union never
propagates to the union's caller — every failure a member throws is
swallowed and the next alternative is tried, so the only error the applied
union contract can raise is its own no-match error. -/
theorem C10_union_swallows :
    (∀ (cs : List Contract) (x : JSVal) (e : JSError),
        unionC cs x = .error e → e = "No match among unioned types.")
    ∧ (∀ (e : JSError) (rest : List Contract) (x : JSVal),
        unionC ((fun _ => .error e) :: rest) x = unionC rest x) := by
  constructor
  · intro cs x e h
    induction cs with
    | nil =>
        simp only [unionC] at h
        exact (Except.error.inj h).symm
    | cons c cs ih =>
        simp only [unionC] at h
        cases hc : c x with
        | ok v => rw [hc] at h; cases h
        | error e' => rw [hc] at h; exact ih h
  · intro e rest x
    rfl

/-- Witness for C10: a union whose single member throws an arbitrary
exception raises only the no-match error. -/
theorem C10_union_swallows_witness :
    unionC [fun _ => .error "boom"] (.num 0) = .error "No match among unioned types."
    ∧ "No match among unioned types." = "No match among unioned types." :=
  ⟨rfl, C10_union_swallows.1 [fun _ => .error "boom"] (.num 0)
      "No match among unioned types." rfl⟩

/-- `intersect(cs)`: the source's loop `result = x; for i { result = cs[i](result) }`,
with a thrown exception aborting the loop. -/
def intersect (cs : List Contract) : Contract := fun x =>
  List.foldlM (fun r c => c r) x cs

/-- The spec's description of intersection: `cn(...(c2(c1(x))))`, each
member contract applied to the running result of the previous one,
function composition in the listed order. -/
def seqCompSpec : List Contract → Contract
  | [] => fun x => .ok x
  | c :: cs => fun x => (c x).bind (seqCompSpec cs)

/-- C9: `intersect(cs)(x)` equals the sequential composition
`cn(...(c2(c1(x))))` — each member contract is applied to the running
result of the previous one, not independently to the original input.  The
concrete instance shows the threading: two copies of an incrementing
contract applied to `0` yield `2`. -/
theorem C9_intersect_compose :
    (∀ (cs : List Contract) (x : JSVal), intersect cs x = seqCompSpec cs x)
    ∧ intersect
        [fun v => (match v with
                   | .num n => .ok (.num (n + 1))
                   | _ => .error "Expected a number."),
         fun v => (match v with
                   | .num n => .ok (.num (n + 1))
                   | _ => .error "Expected a number.")]
        (.num 0) = .ok (.num 2) := by
  constructor
  · intro cs x
    induction cs generalizing x with
    | nil => rfl
    | cons c cs ih =>
        show (c x >>= fun r => List.foldlM (fun r c => c r) r cs)
          = (c x).bind (seqCompSpec cs)
        cases h : c x with
        | error e => rfl
        | ok v =>
            show intersect cs v = seqCompSpec cs v
            exact ih v
  · rfl

/-- `coprodn(cs)`: validates a `[tag, payload]` pair.  The source checks,
in order: the input is an array, `choice[0]` passes `nat32`, the array has
exactly 2 elements, and the tag is below the number of member contracts;
it then returns a fresh pair of the tag and the validated payload.
(`xs.getD i .undef` is JavaScript indexing: out-of-range reads yield
`undefined`.) -/
def coprodn (cs : List Contract) : Contract := fun choice =>
  match choice with
  | .arr xs =>
      match xs.getD 0 .undef with
      | .num t =>
          if 0 ≤ t ∧ t < 2 ^ 31 then
            if xs.length = 2 then
              if h : t.toNat < cs.length then
                ((cs.get ⟨t.toNat, h⟩) (xs.getD 1 .undef)).map
                  (fun w => .arr [.num t, w])
              else .error "Tag out of range."
            else .error "Expected [nat32, any]."
          else .error "Expected a 32-bit natural."
      | _ => .error "Expected a 32-bit natural."
  | _ => .error "Expected Array"

/-- C7: for `coprodn([c0, c1])`, the pair `[1, v]` succeeds exactly when
`c1(v)` succeeds, yielding the pair of the tag and the validated payload,
while the pair `[2, v]` always raises "Tag out of range." because the tag
must be an index below the number of member contracts. -/
theorem C7_coprodn_tag :
    (∀ (c0 c1 : Contract) (v : JSVal),
        coprodn [c0, c1] (.arr [.num 1, v])
          = (c1 v).map (fun w => .arr [.num 1, w]))
    ∧ (∀ (c0 c1 : Contract) (v : JSVal),
        coprodn [c0, c1] (.arr [.num 2, v]) = .error "Tag out of range.") := by
  constructor
  · intro c0 c1 v
    rfl
  · intro c0 c1 v
    rfl

/-- Structural equality is reflexive (as JavaScript `===` is on any value
compared with itself, barring `NaN`, which this integer model omits). -/
lemma jsEq_refl : ∀ a, jsEq a a = true
  | .undef => by simp [jsEq]
  | .null => by simp [jsEq]
  | .bool _ => by simp [jsEq]
  | .num _ => by simp [jsEq]
  | .str _ => by simp [jsEq]
  | .arr [] => by simp [jsEq]
  | .arr (x :: xs) => by simp [jsEq, jsEq_refl x, jsEq_refl (.arr xs)]
  | .obj [] p => by simp [jsEq, jsEq_refl p]
  | .obj ((k, v) :: fs) p => by simp [jsEq, jsEq_refl v, jsEq_refl (.obj fs p)]

/-- On primitive values, the model's structural equality agrees with
propositional equality (and hence with JavaScript `===`). -/
lemma jsEq_prim_iff (a b : JSVal) (h : isPrim a = true) :
    jsEq a b = true ↔ a = b := by
  cases a <;> cases b <;> simp_all [jsEq, isPrim]

/-- The source's scan `for (i = 1; i < len; ++i)` comparing `result[i]`
with `result[0]` (`d0`): returns the first mismatching position, counting
from `i`. -/
def firstMismatch (d0 : JSVal) : List JSVal → Nat → Option Nat
  | [], _ => none
  | d :: ds, i => if jsEq d d0 then firstMismatch d0 ds (i + 1) else some i

lemma firstMismatch_none_iff (d0 : JSVal) :
    ∀ (ds : List JSVal) (i : Nat),
      firstMismatch d0 ds i = none ↔ ∀ d ∈ ds, jsEq d d0 = true := by
  intro ds
  induction ds with
  | nil => intro i; simp [firstMismatch]
  | cons d ds ih =>
      intro i
      by_cases h : jsEq d d0 = true
      · simp [firstMismatch, h, ih]
      · simp [firstMismatch, h]

lemma firstMismatch_eq_some (d0 : JSVal) :
    ∀ (ds : List JSVal) (i j : Nat) (dj : JSVal),
      ds.get? j = some dj → jsEq dj d0 = false →
      (∀ k, k < j → ∀ dk, ds.get? k = some dk → jsEq dk d0 = true) →
      firstMismatch d0 ds i = some (i + j) := by
  intro ds
  induction ds with
  | nil => intro i j dj hget; simp at hget
  | cons d ds ih =>
      intro i j dj hget hne hbefore
      cases j with
      | zero =>
          simp only [List.get?] at hget
          injection hget with hget
          subst hget
          simp [firstMismatch, hne]
      | succ j' =>
          have hd : jsEq d d0 = true :=
            hbefore 0 (Nat.succ_pos j') d rfl
          simp only [List.get?] at hget
          have := ih (i + 1) j' dj hget hne
            (fun k hk dk hdk => hbefore (k + 1) (Nat.succ_lt_succ hk) dk hdk)
          simp only [firstMismatch, hd, if_pos]
          rw [this]
          congr 1
          omega

/-- `pbn(fs)` of the copying jscategory.js revision: its `prodn` collects
the derived values into a fresh array (`result`), so `args` still holds
the original elements and the trailing `return args` hands back the
original, undecorated input array.  Every derived value must be `===` the
first, the first mismatching position being reported. -/
def pbn (fs : List Contract) : Contract := fun args =>
  match args with
  | .arr xs =>
      if xs.length = fs.length then do
        let ds ← prodnApply fs xs
        match ds with
        | [] => pure (.arr xs)
        | d0 :: rest =>
            match firstMismatch d0 rest 1 with
            | some i =>
                .error ("Failed to match pullback constraint in position "
                        ++ toString i)
            | none => pure (.arr xs)
      else .error ("Expected " ++ toString fs.length ++ " arguments")
  | _ => .error "Expected Array"

lemma pbn_reduce_nil (fs : List Contract) (xs : List JSVal)
    (hlen : xs.length = fs.length) (hds : prodnApply fs xs = .ok []) :
    pbn fs (.arr xs) = .ok (.arr xs) := by
  unfold pbn
  simp only [if_pos hlen, hds]
  rfl

lemma pbn_reduce_cons (fs : List Contract) (xs : List JSVal)
    (d0 : JSVal) (rest : List JSVal)
    (hlen : xs.length = fs.length)
    (hds : prodnApply fs xs = .ok (d0 :: rest)) :
    pbn fs (.arr xs) =
      match firstMismatch d0 rest 1 with
      | some i =>
          .error ("Failed to match pullback constraint in position "
                  ++ toString i)
      | none => .ok (.arr xs) := by
  unfold pbn
  simp only [if_pos hlen, hds]
  rfl

/-- The copying revision's pullback characterized: when the derivers all
succeed with derived values `ds`, the contract succeeds — returning the
original input array — exactly when every derived value is `===` the
first; the first mismatch (scanning positions 1, 2, …) at position
`j + 1` raises the error naming that position. -/
lemma pbn_copy_characterization (fs : List Contract) (xs ds : List JSVal)
    (hlen : xs.length = fs.length)
    (hds : prodnApply fs xs = .ok ds) :
    (pbn fs (.arr xs) = .ok (.arr xs)
      ↔ ∀ d ∈ ds, jsEq d (ds.headD .undef) = true)
    ∧ (∀ (d0 dj : JSVal) (rest : List JSVal) (j : Nat),
        ds = d0 :: rest → rest.get? j = some dj → jsEq dj d0 = false →
        (∀ k, k < j → ∀ dk, rest.get? k = some dk → jsEq dk d0 = true) →
        pbn fs (.arr xs)
          = .error ("Failed to match pullback constraint in position "
                    ++ toString (j + 1)))
    ∧ (∀ a b : JSVal, isPrim a = true → (jsEq a b = true ↔ a = b)) := by
  refine ⟨?_, ?_, fun a b h => jsEq_prim_iff a b h⟩
  · cases ds with
    | nil =>
        rw [pbn_reduce_nil fs xs hlen hds]
        simp
    | cons d0 rest =>
        rw [pbn_reduce_cons fs xs d0 rest hlen hds]
        cases hfm : firstMismatch d0 rest 1 with
        | some i =>
            simp only [hfm, List.headD_cons]
            constructor
            · intro h; cases h
            · intro h
              rw [(firstMismatch_none_iff d0 rest 1).mpr
                    (fun d hd => h d (List.mem_cons_of_mem d0 hd))] at hfm
              cases hfm
        | none =>
            simp only [hfm, List.headD_cons]
            constructor
            · intro _ d hd
              rcases List.mem_cons.mp hd with h | h
              · subst h; exact jsEq_refl d
              · exact (firstMismatch_none_iff d0 rest 1).mp hfm d h
            · intro _; trivial
  · intro d0 dj rest j hdseq hget hne hbefore
    subst hdseq
    rw [pbn_reduce_cons fs xs d0 rest hlen hds]
    have hsome := firstMismatch_eq_some d0 rest 1 j dj hget hne hbefore
    rw [Nat.add_comm 1 j] at hsome
    simp only [hsome]

/-- `pbn(fs)` of the ES6 in-place revision (src/unnamed/part_000, lines
224-238): there `c = prodn(fs)` validates IN PLACE — the loop runs
`args[i] = cs[i](args[i])` and returns `args` itself — so after
`let result = c(args)` the names `result` and `args` alias one array that
now holds the derived values, and the trailing `return args` hands back
the derived values, not the original elements.  The mutated array is
modelled by its final contents.  (That revision's `prodn` arity message
says "elements" rather than "arguments".) -/
def pbnMut (fs : List Contract) : Contract := fun args =>
  match args with
  | .arr xs =>
      if xs.length = fs.length then do
        let ds ← prodnApply fs xs
        match ds with
        | [] => pure (.arr ds)
        | d0 :: rest =>
            match firstMismatch d0 rest 1 with
            | some i =>
                .error ("Failed to match pullback constraint in position "
                        ++ toString i)
            | none => pure (.arr ds)
      else .error ("Expected " ++ toString fs.length ++ " elements")
  | _ => .error "Expected Array"

/-- C6: the two cited revisions of the pullback agree on acceptance and on
the mismatch error, but disagree on what a successful application returns.
With the constant derivers `_ ↦ 7` applied to `[1, 2]` (a success, since
`7 === 7`), the copying jscategory.js revision returns the original
undecorated tuple `[1, 2]`, while the in-place revision of
src/unnamed/part_000 — whose `prodn` overwrites the input array with the
derived values — returns `[7, 7]`.  The two results differ, refuting the
claim's "returns the original (undecorated) input tuple, not the derived
values" for that cited revision; with derivers `_ ↦ 7` and `_ ↦ 8` it
still reports the first mismatching position as the claim states. -/
theorem C6_pbn_inplace_divergence :
    (pbn [fun _ => .ok (.num 7), fun _ => .ok (.num 7)]
        (.arr [.num 1, .num 2]) = .ok (.arr [.num 1, .num 2]))
    ∧ (pbnMut [fun _ => .ok (.num 7), fun _ => .ok (.num 7)]
        (.arr [.num 1, .num 2]) = .ok (.arr [.num 7, .num 7]))
    ∧ JSVal.arr [.num 1, .num 2] ≠ JSVal.arr [.num 7, .num 7]
    ∧ (pbnMut [fun _ => .ok (.num 7), fun _ => .ok (.num 8)]
        (.arr [.num 1, .num 2])
        = .error "Failed to match pullback constraint in position 1") := by
  refine ⟨?_, ?_, ?_, ?_⟩
  · simp [pbn, prodnApply, Bind.bind, Except.bind, Pure.pure, Except.pure, firstMismatch, jsEq]
  · simp [pbnMut, prodnApply, Bind.bind, Except.bind, Pure.pure, Except.pure, firstMismatch, jsEq]
  · simp
  · simp [pbnMut, prodnApply, Bind.bind, Except.bind, Pure.pure, Except.pure, firstMismatch, jsEq]
    rfl

/-- JavaScript property lookup `o[k]`: own enumerable properties first,
then the prototype chain; `undefined` when absent. -/
def getProp : JSVal → String → JSVal
  | .obj fields proto, k =>
      match fields.find? (fun p => p.1 == k) with
      | some p => p.2
      | none => getProp proto k
  | _, _ => (JSVal.undef)

/-- The field loop of `prods`: for each listed key, validate the input
object's property of that name, collecting `(key, validatedValue)` pairs
in order. -/
def prodsFields : List (String × Contract) → JSVal →
    Except JSError (List (String × JSVal))
  | [], _ => .ok []
  | (k, c) :: cs, x => do
      let v ← c (getProp x k)
      let vs ← prodsFields cs x
      pure ((k, v) :: vs)

/-- `prods(cs)` in its copy-semantics revision (jscategory.js): checks the
input is a plain object, allocates
`result = Object.create(Object.getPrototypeOf(x))` — a fresh object whose
prototype is the input's prototype — and for each listed key `i` sets
`result[i] = cs[i](x[i])`, returning the fresh object.  The input object
is only read, never written.  `cs` is the ordered list of the contract
object's enumerable properties. -/
def prods (cs : List (String × Contract)) : Contract := fun x =>
  match x with
  | .obj fields proto =>
      (prodsFields cs (.obj fields proto)).map (fun vals => .obj vals proto)
  | _ => .error "Expected Object"

lemma prodsFields_ok (cs : List (String × Contract)) (x : JSVal) :
    ∀ vals, prodsFields cs x = .ok vals →
      List.Forall₂
        (fun (p : String × Contract) (q : String × JSVal) =>
          q.1 = p.1 ∧ p.2 (getProp x p.1) = .ok q.2) cs vals := by
  induction cs with
  | nil =>
      intro vals h
      simp only [prodsFields] at h
      injection h with h
      subst h
      exact List.Forall₂.nil
  | cons p cs ih =>
      intro vals h
      obtain ⟨k, c⟩ := p
      simp only [prodsFields] at h
      cases hc : c (getProp x k) with
      | error e => rw [hc] at h; cases h
      | ok v =>
          rw [hc] at h
          cases hrest : prodsFields cs x with
          | error e => rw [hrest] at h; cases h
          | ok vs =>
              rw [hrest] at h
              have h : Except.ok ((k, v) :: vs) = Except.ok vals := h
              injection h with h
              subst h
              exact List.Forall₂.cons ⟨rfl, hc⟩ (ih vs hrest)

/-- C4: when the copy-semantics named product accepts an object, the
result is a fresh object whose prototype is the input object's prototype,
whose own properties are exactly the listed keys in order, each carrying
the value validated by its contract from the input's corresponding
property; the input object itself is only read (the embedding of `prods`
is a pure function of it). -/
theorem C4_prods_copy (cs : List (String × Contract))
    (fields : List (String × JSVal)) (proto : JSVal) (y : JSVal)
    (h : prods cs (.obj fields proto) = .ok y) :
    ∃ vals, y = .obj vals proto
      ∧ vals.map Prod.fst = cs.map Prod.fst
      ∧ List.Forall₂
          (fun (p : String × Contract) (q : String × JSVal) =>
            q.1 = p.1 ∧ p.2 (getProp (.obj fields proto) p.1) = .ok q.2)
          cs vals := by
  replace h : Except.map (fun vals => JSVal.obj vals proto)
      (prodsFields cs (.obj fields proto)) = .ok y := h
  cases hf : prodsFields cs (.obj fields proto) with
  | error e => rw [hf] at h; cases h
  | ok vals =>
      rw [hf] at h
      simp only [Except.map] at h
      injection h with h
      refine ⟨vals, h.symm, ?_, prodsFields_ok cs _ vals hf⟩
      have hall := prodsFields_ok cs (.obj fields proto) vals hf
      clear h hf
      induction hall with
      | nil => rfl
      | cons h₁ _ ih => simp [h₁.1, ih]

/-- Witness for C4: validating `{a: 3, z: "w"}` against `{a: int32}`
yields a fresh object carrying only the validated `a` field, inheriting
from the input's (null) prototype. -/
theorem C4_prods_copy_witness :
    ∃ vals, (JSVal.obj [("a", JSVal.num 3)] .null)
        = JSVal.obj vals .null
      ∧ vals.map Prod.fst = [("a", int32)].map Prod.fst
      ∧ List.Forall₂
          (fun (p : String × Contract) (q : String × JSVal) =>
            q.1 = p.1 ∧
              p.2 (getProp (.obj [("a", JSVal.num 3), ("z", JSVal.str "w")] .null) p.1)
                = .ok q.2)
          [("a", int32)] vals :=
  C4_prods_copy [("a", int32)] [("a", JSVal.num 3), ("z", JSVal.str "w")] .null
    (.obj [("a", JSVal.num 3)] .null) (by rfl)

/-- `hom(...).self(c)` applied to a method body: the body is first wrapped
by the function-contract guard (`method = homab(method)`); the resulting
callable evaluates `c(this)` on each invocation — throwing before the
guarded method runs when the receiver fails — and then invokes the guarded
method on the validated receiver with the original arguments. -/
def selfGuard (homab : Callable → Callable) (c : Contract)
    (method : Callable) : Callable :=
  let guarded := homab method
  fun this args => (c this).bind (fun t => guarded t args)

/-- C8: a guarded method produced by `self(receiverContract)` raises the
receiver contract's failure whenever `this` fails it, for any method and
any arguments — even arguments that satisfy their parameter contracts —
and otherwise runs the already-guarded method on the validated receiver,
composing the receiver check with the existing argument/result guard.  The
concrete pair shows a `hom(int32, int32)`-guarded method with a valid
argument: it raises on a numeric receiver failing `object` and succeeds on
an object receiver. -/
theorem C8_self_receiver :
    (∀ (homab : Callable → Callable) (c : Contract) (method : Callable)
        (this : JSVal) (args : List JSVal) (e : JSError),
        c this = .error e →
        selfGuard homab c method this args = .error e)
    ∧ (∀ (homab : Callable → Callable) (c : Contract) (method : Callable)
        (this : JSVal) (args : List JSVal) (t : JSVal),
        c this = .ok t →
        selfGuard homab c method this args = homab method t args)
    ∧ selfGuard (homGuard [int32] int32) objectC
        (fun _ args => .ok (args.headD .undef)) (.num 7) [.num 3]
        = .error "Expected Object"
    ∧ selfGuard (homGuard [int32] int32) objectC
        (fun _ args => .ok (args.headD .undef)) (.obj [] .null) [.num 3]
        = .ok (.num 3) := by
  refine ⟨?_, ?_, ?_, ?_⟩
  · intro homab c method this args e h
    unfold selfGuard
    simp only [h]
    rfl
  · intro homab c method this args t h
    unfold selfGuard
    simp only [h]
    rfl
  · rfl
  · rfl

/-- Witness for C8: the receiver-failure clause at the concrete method and
receiver. -/
theorem C8_self_receiver_witness :
    selfGuard (homGuard [int32] int32) objectC
        (fun _ args => .ok (args.headD .undef)) (.num 7) [.num 3]
      = .error "Expected Object" :=
  C8_self_receiver.1 (homGuard [int32] int32) objectC
    (fun _ args => .ok (args.headD .undef)) (.num 7) [.num 3]
    "Expected Object" (by rfl)

/-- A unary JavaScript function invoked through `apply` receives its first
argument (or `undefined` when the argument list is empty). -/
def asCallable (c : Contract) : Callable := fun _this args =>
  c (args.headD .undef)

/-- `memo(c)` of jscategory.js, one call with the cache threaded
explicitly: the wrapped computation is `hom(str, any)(c)`, the cache key
is `"$" + str(s)` (so `str(s)` throws first on a non-string), a hit
returns the cached value, and a miss stores and returns the computed,
validated value. -/
def memoJS (c : Contract) (cache : List (String × JSVal)) (s : JSVal) :
    Except JSError (JSVal × List (String × JSVal)) :=
  match s with
  | .str sv =>
      let key := "$" ++ sv
      match cache.find? (fun p => p.1 == key) with
      | some p => .ok (p.2, cache)
      | none =>
          (homGuard [strC] anyC (asCallable c) .undef [s]).map
            (fun v => (v, (key, v) :: cache))
  | _ => .error "Expected astring."

/-- `memo(c)` of the ES6 revision (src/unnamed/part_000, the `Map`-keyed
one): the wrapped computation is `hom(any, any)(c)`, a hit returns the
cached value, and a miss runs `memo.set(key, c(key))` but then returns the
KEY rather than the computed value. -/
def memoMap (c : Contract) (cache : List (JSVal × JSVal)) (key : JSVal) :
    Except JSError (JSVal × List (JSVal × JSVal)) :=
  match cache.find? (fun p => jsEq p.1 key) with
  | some p => .ok (p.2, cache)
  | none =>
      (homGuard [anyC] anyC (asCallable c) .undef [key]).map
        (fun v => (key, (key, v) :: cache))

/-- C3: with the computation `c(v) = [v]`, the jscategory.js memoizer
behaves as claimed — the first call computes and returns `["k"]`, the
second call returns the same cached value, and a cache hit never invokes
the wrapped computation (the result is the same for every wrapped
contract) — while the ES6 `Map` revision cited by the claim returns the
raw key `5` from the first call and the cached computed value `[5]` from
the second, so the two calls' results differ, contradicting the claim. -/
theorem C3_memo_discard_bug :
    (memoJS (fun v => .ok (.arr [v])) [] (.str "k")
        = .ok (.arr [.str "k"], [("$k", .arr [.str "k"])]))
    ∧ (memoJS (fun v => .ok (.arr [v])) [("$k", .arr [.str "k"])] (.str "k")
        = .ok (.arr [.str "k"], [("$k", .arr [.str "k"])]))
    ∧ (∀ c : Contract,
        memoJS c [("$k", .arr [.str "k"])] (.str "k")
          = .ok (.arr [.str "k"], [("$k", .arr [.str "k"])]))
    ∧ (memoMap (fun v => .ok (.arr [v])) [] (.num 5)
        = .ok (.num 5, [(.num 5, .arr [.num 5])]))
    ∧ (memoMap (fun v => .ok (.arr [v])) [(.num 5, .arr [.num 5])] (.num 5)
        = .ok (.arr [.num 5], [(.num 5, .arr [.num 5])]))
    ∧ (JSVal.num 5 ≠ JSVal.arr [.num 5]) := by
  refine ⟨rfl, rfl, fun c => rfl, ?_, ?_, fun h => JSVal.noConfusion h⟩
  · simp [memoMap, jsEq, homGuard, prodnApply, asCallable, anyC, Except.map]
    rfl
  · simp [memoMap, jsEq]

/-- A parameter specification for the optional-argument form of the
function contract: a plain contract (required) or a contract marked
optional. -/
inductive Param where
  | req (c : Contract)
  | opt (c : Contract)

/-- Modelled from the spec: no revision under src implements optional
parameters, so §4.3 is the authority.  Parses the trailing run of optional
parameters, failing on a required parameter after an optional one (the
construction-time error for non-contiguous optionals). -/
def optTail : List Param → Except JSError (List Contract)
  | [] => .ok []
  | .opt c :: rest => (optTail rest).map (c :: ·)
  | .req _ :: _ =>
      .error "Optional parameters must form a contiguous trailing suffix."

/-- Modelled from the spec: splits a parameter list into the required
leading contracts and the optional trailing contracts, failing when the
optionals are not contiguous and trailing. -/
def splitParams : List Param → Except JSError (List Contract × List Contract)
  | .req c :: rest => (splitParams rest).map (fun p => (c :: p.1, p.2))
  | ps => (optTail ps).map (fun os => ([], os))

/-- Modelled from the spec: the precondition of a function contract with
required contracts `rs` and `k` optional contracts `os` — a union over the
`k + 1` fixed-arity positional products `prodn(rs ++ os.take i)`, one per
allowed call arity from `rs.length` through `rs.length + k`. -/
def homOptPre (rs os : List Contract) : Contract :=
  unionC ((List.range (os.length + 1)).map (fun i => prodn (rs ++ os.take i)))

/-- The elements of an array value (the precondition always produces an
array, so the fallback arm is unreachable). -/
def jsElems : JSVal → List JSVal
  | .arr xs => xs
  | v => [v]

/-- Modelled from the spec: `hom` with optional parameters — construction
splits the parameter list (erroring on non-trailing optionals); the
guarded callable validates the argument list against the union
precondition, runs the wrapped callable on the validated arguments and the
original receiver, then validates the result. -/
def homOpt (params : List Param) (post : Contract) :
    Except JSError (Callable → Callable) :=
  (splitParams params).map (fun p => fun middle => fun this args => do
    let v ← homOptPre p.1 p.2 (.arr args)
    let r ← middle this (jsElems v)
    post r)

lemma optTail_length : ∀ (ps : List Param) (os : List Contract),
    optTail ps = .ok os → os.length = ps.length := by
  intro ps
  induction ps with
  | nil =>
      intro os h
      injection h with h
      subst h
      rfl
  | cons p rest ih =>
      intro os h
      cases p with
      | req c => cases h
      | opt c =>
          simp only [optTail] at h
          cases hr : optTail rest with
          | error e => rw [hr] at h; cases h
          | ok os' =>
              rw [hr] at h
              simp only [Except.map] at h
              injection h with h
              subst h
              simp [ih os' hr]

/-- C2: construction with `k` optional parameters (which must be a
contiguous trailing suffix — a required parameter after an optional one is
a construction error) yields a precondition that is a union over `k + 1`
positional products whose arities run from `n − k` through `n`; and the
guarded callable of `hom(int32, opt(int32), int32)` over a constant
callable accepts calls with 1 or 2 arguments and rejects calls with 0 or 3
arguments with the union's no-match error. -/
theorem C2_hom_optional_arity :
    (∀ (params : List Param) (rs os : List Contract),
        splitParams params = .ok (rs, os) →
        rs.length + os.length = params.length
        ∧ ∀ i, i ≤ os.length → (rs ++ os.take i).length = rs.length + i)
    ∧ splitParams [.opt int32, .req int32]
        = .error "Optional parameters must form a contiguous trailing suffix."
    ∧ (homOpt [.req int32, .opt int32] int32).map
        (fun g =>
          [g (fun _ _ => .ok (.num 0)) .undef [.num 5],
           g (fun _ _ => .ok (.num 0)) .undef [.num 5, .num 6],
           g (fun _ _ => .ok (.num 0)) .undef [],
           g (fun _ _ => .ok (.num 0)) .undef [.num 5, .num 6, .num 7]])
      = .ok [.ok (.num 0), .ok (.num 0),
             .error "No match among unioned types.",
             .error "No match among unioned types."] := by
  refine ⟨?_, by rfl, by rfl⟩
  intro params
  induction params with
  | nil =>
      intro rs os h
      injection h with h
      cases h
      exact ⟨rfl, by intro i hi; simp at hi; simp [hi]⟩
  | cons p rest ih =>
      intro rs os h
      cases p with
      | req c =>
          simp only [splitParams] at h
          cases hr : splitParams rest with
          | error e => rw [hr] at h; cases h
          | ok q =>
              rw [hr] at h
              simp only [Except.map] at h
              injection h with h
              cases h
              have := ih q.1 q.2 hr
              constructor
              · simp only [List.length_cons]
                omega
              · intro i hi
                simp only [List.cons_append, List.length_cons,
                  List.length_append, List.length_take, Nat.min_eq_left hi]
                omega
      | opt c =>
          simp only [splitParams] at h
          cases ho : optTail (.opt c :: rest) with
          | error e => rw [ho] at h; cases h
          | ok os' =>
              rw [ho] at h
              simp only [Except.map] at h
              injection h with h
              cases h
              have hlen := optTail_length _ _ ho
              constructor
              · simpa using hlen
              · intro i hi
                simp [List.length_take, Nat.min_eq_left hi]

/-- Witness for C2: the bookkeeping clause applied to the concrete
parameter list `[req int32, opt int32]`. -/
theorem C2_hom_optional_arity_witness :
    [int32].length + [int32].length
        = ([Param.req int32, Param.opt int32] : List Param).length
      ∧ ∀ i, i ≤ [int32].length →
          ([int32] ++ [int32].take i).length = [int32].length + i :=
  C2_hom_optional_arity.1 [.req int32, .opt int32] [int32] [int32] (by rfl)
